import Mathlib

/-!
Verification development for `ps08/experiment.py`.

We give a shallow embedding of the parts of the driver that do real work:

* `match_features` (lines 132-165): the nearest-neighbour matcher that turns
  pairwise feature distances into a confusion matrix.  Python `dict`s are
  embedded as association lists (Python dicts iterate in insertion order, so a
  list preserves the iteration order the code relies on).  Floating point
  distances are embedded as rationals; `np.inf`, the initial `min_diff`, is
  embedded as `⊤ : WithTop ℚ`.  The function `compute_feature_difference`
  called at line 156 is imported from the student module `ps8` which is not in
  the repository, so `match_features` is embedded generically in the distance
  function `d` it calls, exactly as the Python function is generic in whatever
  `compute_feature_difference` happens to be.  Numpy indexing of the confusion
  matrix (`confusion_matrix[a - 1, b - 1] += 1`, line 162) is embedded by
  `pyIdx`, which wraps negative indices in `[-n, -1]` to `n + i` and fails
  (models `IndexError`) outside `[-n, n)`.  The unconditional row
  normalisation `confusion_matrix /= confusion_matrix.sum(axis=1)[:, np.newaxis]`
  (line 164) is embedded by `normalizeRows`; an entry produced by dividing by a
  zero row sum (numpy: `0.0/0.0 = NaN` with a warning, not an exception) is
  embedded as `none`.

* the MEI derivation `mei = np.uint8(mhi > 0)` of `get_cs_moment_features`
  (line 121), embedded as `mei_of_mhi`.

* `build_motion_history_image` (lines 8-86): the per-clip driver loop.  The
  video is embedded as the list of frames that `video.read()` successfully
  returns; the builder class passed as a parameter (`builder_class`,
  `MotionHistoryBuilder` from the missing `ps8` module) is embedded as a
  constructor `initB`, a state transformer `processB` (the Python `process`
  mutates the builder and returns the motion image, so it becomes
  `B → Frame → B × Image`) and an observer `getMHI`.  The Python
  `frame_num == mhi_frame` test against a possibly absent `mhi_frame` keyword
  is embedded with `Option ℕ` (in Python, `int == None` is `False`).  The
  `AttributeError` raised at line 80 when `get_MHI` is invoked on the absent
  (`None`) builder is embedded as the `none` result.  File output, printing
  and the `KeyboardInterrupt` handler are side effects outside the embedding.
-/

namespace PS8Exp

/-- Identity key of one video clip: `(<action>, <participant>, <trial>)`,
the key type of the feature dicts of `match_features`. -/
abbrev IdKey : Type := ℤ × ℤ × ℤ

section Matcher

variable {α : Type}

/-- Inner loop of `match_features` (lines 151-159): scan the gallery dict
`b_dict`, skip entries whose key equals the query key (`continue`, line 155),
and keep the strictly smallest distance together with its key.  `min_diff`
starts at `np.inf`, embedded as `⊤ : WithTop ℚ`; `best_match` starts at
`None`.  The distance function `d` stands for `compute_feature_difference`. -/
def matchLoop (d : α → α → ℚ) (a_key : IdKey) (a_features : α) :
    List (IdKey × α) → WithTop ℚ → Option IdKey → WithTop ℚ × Option IdKey
  | [], min_diff, best_match => (min_diff, best_match)
  | (b_key, b_features) :: rest, min_diff, best_match =>
    if a_key = b_key then
      matchLoop d a_key a_features rest min_diff best_match
    else if ((d a_features b_features : ℚ) : WithTop ℚ) < min_diff then
      matchLoop d a_key a_features rest ((d a_features b_features : ℚ) : WithTop ℚ) (some b_key)
    else
      matchLoop d a_key a_features rest min_diff best_match

/-- The gallery entries that are actually compared for a query with key
`a_key`: those whose key differs (line 154-155 skips equal keys). -/
def eligibleEntries (a_key : IdKey) (l : List (IdKey × α)) : List (IdKey × α) :=
  l.filter fun b => decide (a_key ≠ b.1)

/-- Minimum of the distances from `a_features` to the entries of `l`
(`⊤` for the empty list), the value `min_diff` holds after the scan. -/
def minDiffOver (d : α → α → ℚ) (a_features : α) (l : List (IdKey × α)) : WithTop ℚ :=
  l.foldr (fun b acc => min ((d a_features b.2 : ℚ) : WithTop ℚ) acc) ⊤

/-- First entry of `l` whose distance from `a_features` equals `target`,
if any — the entry the strict-inequality update of lines 157-159 keeps when
`target` is the minimum distance (a later entry at the same distance never
overwrites it, because `diff < min_diff` is strict). -/
def firstMinKey (d : α → α → ℚ) (a_features : α) (target : WithTop ℚ) :
    List (IdKey × α) → Option IdKey
  | [] => none
  | b :: l =>
    if ((d a_features b.2 : ℚ) : WithTop ℚ) = target then some b.1
    else firstMinKey d a_features target l

/-- Numpy index resolution for an axis of length `n`: an index in `[0, n)` is
used as is, an index in `[-n, 0)` wraps to `n + i` (negative indexing), and
anything else raises `IndexError`, embedded as `none`. -/
def pyIdx (n : ℕ) (i : ℤ) : Option (Fin n) :=
  if h : 0 ≤ i ∧ i < (n : ℤ) then some ⟨i.toNat, by omega⟩
  else if h' : -(n : ℤ) ≤ i ∧ i < 0 then some ⟨(i + n).toNat, by omega⟩
  else none

/-- Outer loop of `match_features` (lines 150-162): for each query, run the
inner scan; if a best match was found, add one count at
`confusion_matrix[a_key[0] - 1, best_match[0] - 1]` (line 162), resolving both
indices with numpy semantics; an `IndexError` (a `none` from `pyIdx`) aborts
the whole computation with `none`.  The confusion matrix is an
`n × n` table of rationals, zero-initialised by the caller (line 149). -/
def accumLoop (d : α → α → ℚ) (n : ℕ) (b_dict : List (IdKey × α)) :
    List (IdKey × α) → (Fin n → Fin n → ℚ) → Option (Fin n → Fin n → ℚ)
  | [], cm => some cm
  | (a_key, a_features) :: rest, cm =>
    match (matchLoop d a_key a_features b_dict ⊤ none).2 with
    | none => accumLoop d n b_dict rest cm
    | some b_key =>
      match pyIdx n (a_key.1 - 1), pyIdx n (b_key.1 - 1) with
      | some r, some c =>
          accumLoop d n b_dict rest
            (fun r' c' => if r' = r ∧ c' = c then cm r' c' + 1 else cm r' c')
      | _, _ => none

/-- Row sum of the confusion matrix, `confusion_matrix.sum(axis=1)` at
line 164. -/
def rowSum (n : ℕ) (cm : Fin n → Fin n → ℚ) (r : Fin n) : ℚ :=
  ∑ c, cm r c

/-- One entry of the numpy row division at line 164: dividing by a zero row
sum produces a non-finite float (`0.0/0.0 = NaN`), embedded as `none`;
otherwise the finite quotient. -/
def pyRowDiv (x s : ℚ) : Option ℚ :=
  if s = 0 then none else some (x / s)

/-- The unconditional row normalisation
`confusion_matrix /= confusion_matrix.sum(axis=1)[:, np.newaxis]`
(line 164): every entry of every row is divided by that row's sum, with no
special case for a zero row sum. -/
def normalizeRows (n : ℕ) (cm : Fin n → Fin n → ℚ) : Fin n → Fin n → Option ℚ :=
  fun r c => pyRowDiv (cm r c) (rowSum n cm r)

/-- `match_features(a_features_dict, b_features_dict, n_actions, scale=1)`
(lines 132-165): accumulate nearest-neighbour matches into a zero confusion
matrix, then row-normalise it.  The result is `none` when the accumulation
raised `IndexError`.  The `scale` parameter is declared exactly as in the
Python signature; the body, like the Python body, never uses it: line 156
calls `compute_feature_difference(a_features, b_features)` without it. -/
def match_features (d : α → α → ℚ) (a_features_dict b_features_dict : List (IdKey × α))
    (n_actions : ℕ) (scale : ℚ := 1) : Option (Fin n_actions → Fin n_actions → Option ℚ) :=
  (accumLoop d n_actions b_features_dict a_features_dict (fun _ _ => 0)).map
    (normalizeRows n_actions)

end Matcher

/-- Modelled from the spec: `compute_feature_difference` lives in the student
module `ps8`, which is not in the repository; §4.4 defines the distance as
"Euclidean distance over the 16-dimensional vector".  This is the unscaled
Euclidean distance between two descriptor vectors. -/
noncomputable def euclideanDistance (a b : List ℝ) : ℝ :=
  Real.sqrt (((a.zip b).map fun p => (p.1 - p.2) ^ 2).sum)

/-- Modelled from the spec: §4.4's distance, "optionally scaled by a
caller-supplied factor" — the Euclidean distance multiplied by the factor. -/
noncomputable def compute_feature_difference (a b : List ℝ) (scale : ℝ) : ℝ :=
  scale * euclideanDistance a b

/-- The distance `match_features` actually uses for a query/gallery pair, as a
function of its `scale` parameter: line 156 reads
`diff = compute_feature_difference(a_features, b_features)` — `scale` is not
forwarded, so the pair is compared with the unscaled distance whatever `scale`
was passed. -/
noncomputable def matchFeaturesDistanceUsed (scale : ℝ) (a b : List ℝ) : ℝ :=
  euclideanDistance a b

/-- The MEI derivation of `get_cs_moment_features`, line 121:
`mei = np.uint8(mhi > 0)` — elementwise comparison with 0, cast to `uint8`
(`True ↦ 1`, `False ↦ 0`).  The MHI is a 2-D array of floats, embedded as a
list of rows of rationals. -/
def mei_of_mhi (mhi : List (List ℚ)) : List (List ℕ) :=
  mhi.map fun row => row.map fun x => if 0 < x then 1 else 0

section BuildMHI

variable {Frame B Image : Type}

/-- The frame loop of `build_motion_history_image` (lines 44-76): read frames
until the source is exhausted; on the first successful read construct the
builder (`builder_class(frame)`, line 53); process the frame (line 56, the
builder is mutated and yields the motion image); if the current frame number
equals `mhi_frame`, grab `get_MHI()` from the (just mutated) builder and break
(lines 68-71).  State carried by the loop: the optional builder and the frame
counter; the result is the final builder together with the optionally grabbed
MHI. -/
def bmhiLoop (initB : Frame → B) (processB : B → Frame → B × Image)
    (getMHI : B → Image) (mhi_frame : Option ℕ) :
    List Frame → Option B → ℕ → Option B × Option Image
  | [], builder, _ => (builder, none)
  | f :: rest, builder, frame_num =>
    let b0 := match builder with
      | none => initB f
      | some b => b
    let b1 := (processB b0 f).1
    if mhi_frame = some frame_num then (some b1, some (getMHI b1))
    else bmhiLoop initB processB getMHI mhi_frame rest (some b1) (frame_num + 1)

/-- `build_motion_history_image` (lines 8-86), with file output and printing
stripped: run the frame loop from an absent builder and frame number 0; if no
MHI was grabbed during the loop, take `mhi = mhi_builder.get_MHI()` at
line 80 — which raises `AttributeError` (embedded as `none`) when the builder
was never constructed because no frame could be read. -/
def build_motion_history_image (initB : Frame → B) (processB : B → Frame → B × Image)
    (getMHI : B → Image) (mhi_frame : Option ℕ) (frames : List Frame) : Option Image :=
  match bmhiLoop initB processB getMHI mhi_frame frames none 0 with
  | (_, some mhi) => some mhi
  | (some b, none) => some (getMHI b)
  | (none, none) => none

/-- Run the builder over a list of frames from state `b`, keeping only the
state (`process` is called once per frame, line 56). -/
def foldProcess (processB : B → Frame → B × Image) (b : B) (fs : List Frame) : B :=
  fs.foldl (fun b' f => (processB b' f).1) b

end BuildMHI

/-! ### Helper lemmas about the matcher loop -/

section MatcherLemmas

variable {α : Type}

theorem eligibleEntries_cons (a_key : IdKey) (b : IdKey × α) (l : List (IdKey × α)) :
    eligibleEntries a_key (b :: l) =
      if a_key = b.1 then eligibleEntries a_key l else b :: eligibleEntries a_key l := by
  simp only [eligibleEntries, List.filter_cons]
  by_cases h : a_key = b.1 <;> simp [h]

theorem minDiffOver_nil (d : α → α → ℚ) (f : α) : minDiffOver d f [] = ⊤ := rfl

theorem minDiffOver_cons (d : α → α → ℚ) (f : α) (b : IdKey × α) (l : List (IdKey × α)) :
    minDiffOver d f (b :: l) = min ((d f b.2 : ℚ) : WithTop ℚ) (minDiffOver d f l) := rfl

theorem minDiffOver_le (d : α → α → ℚ) (f : α) :
    ∀ (l : List (IdKey × α)), ∀ b ∈ l, minDiffOver d f l ≤ ((d f b.2 : ℚ) : WithTop ℚ) := by
  intro l
  induction l with
  | nil => intro b hb; cases hb
  | cons c t ih =>
    intro b hb
    rw [minDiffOver_cons]
    rcases List.mem_cons.mp hb with h | h
    · subst h; exact min_le_left _ _
    · exact le_trans (min_le_right _ _) (ih b h)

theorem minDiffOver_lt_top (d : α → α → ℚ) (f : α) (l : List (IdKey × α)) (h : l ≠ []) :
    minDiffOver d f l < ⊤ := by
  cases l with
  | nil => exact absurd rfl h
  | cons b t =>
    rw [minDiffOver_cons]
    exact lt_of_le_of_lt (min_le_left _ _) (WithTop.coe_lt_top _)

theorem firstMinKey_cons (d : α → α → ℚ) (f : α) (target : WithTop ℚ)
    (b : IdKey × α) (l : List (IdKey × α)) :
    firstMinKey d f target (b :: l) =
      if ((d f b.2 : ℚ) : WithTop ℚ) = target then some b.1
      else firstMinKey d f target l := rfl

/-- Full characterisation of the inner scan of `match_features`: starting from
an arbitrary running minimum `md` and candidate `bm`, the loop returns the
minimum of `md` and the distances to the eligible (different-key) gallery
entries, and the candidate is replaced exactly when some eligible entry beats
`md` strictly, in which case the winner is the first eligible entry attaining
the minimum. -/
theorem matchLoop_characterisation (d : α → α → ℚ) (a_key : IdKey) (a_features : α) :
    ∀ (l : List (IdKey × α)) (md : WithTop ℚ) (bm : Option IdKey),
      matchLoop d a_key a_features l md bm =
        (min md (minDiffOver d a_features (eligibleEntries a_key l)),
         if minDiffOver d a_features (eligibleEntries a_key l) < md then
           firstMinKey d a_features (minDiffOver d a_features (eligibleEntries a_key l))
             (eligibleEntries a_key l)
         else bm) := by
  intro l
  induction l with
  | nil =>
    intro md bm
    simp [matchLoop, eligibleEntries, minDiffOver_nil]
  | cons b t ih =>
    intro md bm
    obtain ⟨b_key, b_features⟩ := b
    simp only [matchLoop]
    rw [eligibleEntries_cons]
    by_cases hk : a_key = b_key
    · rw [if_pos hk, if_pos hk]
      exact ih md bm
    · rw [if_neg hk, if_neg hk, minDiffOver_cons]
      by_cases hlt : ((d a_features b_features : ℚ) : WithTop ℚ) < md
      · rw [if_pos hlt, ih]
        have hmm : min md (min ((d a_features b_features : ℚ) : WithTop ℚ)
              (minDiffOver d a_features (eligibleEntries a_key t)))
            = min ((d a_features b_features : ℚ) : WithTop ℚ)
              (minDiffOver d a_features (eligibleEntries a_key t)) :=
          min_eq_right (le_trans (min_le_left _ _) (le_of_lt hlt))
        have hcond : min ((d a_features b_features : ℚ) : WithTop ℚ)
            (minDiffOver d a_features (eligibleEntries a_key t)) < md :=
          lt_of_le_of_lt (min_le_left _ _) hlt
        rw [hmm, if_pos hcond]
        by_cases hMD : minDiffOver d a_features (eligibleEntries a_key t)
            < ((d a_features b_features : ℚ) : WithTop ℚ)
        · have h1 : min ((d a_features b_features : ℚ) : WithTop ℚ)
              (minDiffOver d a_features (eligibleEntries a_key t))
              = minDiffOver d a_features (eligibleEntries a_key t) :=
            min_eq_right (le_of_lt hMD)
          have h2 : ¬ (((d a_features b_features : ℚ) : WithTop ℚ)
              = minDiffOver d a_features (eligibleEntries a_key t)) :=
            fun h => absurd (h ▸ hMD) (lt_irrefl _)
          rw [if_pos hMD, h1, firstMinKey_cons, if_neg h2]
        · have h1 : min ((d a_features b_features : ℚ) : WithTop ℚ)
              (minDiffOver d a_features (eligibleEntries a_key t))
              = ((d a_features b_features : ℚ) : WithTop ℚ) :=
            min_eq_left (le_of_not_lt hMD)
          rw [if_neg hMD, h1, firstMinKey_cons, if_pos rfl]
      · rw [if_neg hlt, ih]
        have hmd : md ≤ ((d a_features b_features : ℚ) : WithTop ℚ) := le_of_not_lt hlt
        have hmm : min md (min ((d a_features b_features : ℚ) : WithTop ℚ)
              (minDiffOver d a_features (eligibleEntries a_key t)))
            = min md (minDiffOver d a_features (eligibleEntries a_key t)) := by
          rw [← min_assoc, min_eq_left hmd]
        rw [hmm]
        have hcond : (min ((d a_features b_features : ℚ) : WithTop ℚ)
              (minDiffOver d a_features (eligibleEntries a_key t)) < md)
            ↔ (minDiffOver d a_features (eligibleEntries a_key t) < md) := by
          constructor
          · intro h
            rcases min_lt_iff.mp h with h' | h'
            · exact absurd h' (not_lt_of_le hmd)
            · exact h'
          · intro h
            exact lt_of_le_of_lt (min_le_right _ _) h
        by_cases hMmd : minDiffOver d a_features (eligibleEntries a_key t) < md
        · have hMD : minDiffOver d a_features (eligibleEntries a_key t)
              < ((d a_features b_features : ℚ) : WithTop ℚ) := lt_of_lt_of_le hMmd hmd
          have h1 : min ((d a_features b_features : ℚ) : WithTop ℚ)
              (minDiffOver d a_features (eligibleEntries a_key t))
              = minDiffOver d a_features (eligibleEntries a_key t) :=
            min_eq_right (le_of_lt hMD)
          have h2 : ¬ (((d a_features b_features : ℚ) : WithTop ℚ)
              = minDiffOver d a_features (eligibleEntries a_key t)) :=
            fun h => absurd (h ▸ hMD) (lt_irrefl _)
          rw [if_pos (hcond.mpr hMmd), if_pos hMmd, h1, firstMinKey_cons, if_neg h2]
        · rw [if_neg (fun h => absurd (hcond.mp h) hMmd), if_neg hMmd]

/-- The candidate returned by the inner scan never equals the query key,
provided the incoming candidate does not: the equal-key `continue` at
line 154-155 is the only guard needed, because every update stores the key of
an entry that passed it. -/
theorem matchLoop_best_ne (d : α → α → ℚ) (a_key : IdKey) (a_features : α) :
    ∀ (l : List (IdKey × α)) (md : WithTop ℚ) (bm : Option IdKey),
      (∀ k, bm = some k → k ≠ a_key) →
      ∀ k, (matchLoop d a_key a_features l md bm).2 = some k → k ≠ a_key := by
  intro l
  induction l with
  | nil =>
    intro md bm hbm k hk
    simp only [matchLoop] at hk
    exact hbm k hk
  | cons b t ih =>
    intro md bm hbm k hk
    obtain ⟨b_key, b_features⟩ := b
    simp only [matchLoop] at hk
    by_cases hkey : a_key = b_key
    · rw [if_pos hkey] at hk
      exact ih md bm hbm k hk
    · rw [if_neg hkey] at hk
      by_cases hlt : ((d a_features b_features : ℚ) : WithTop ℚ) < md
      · rw [if_pos hlt] at hk
        refine ih _ _ ?_ k hk
        intro k' hk'
        injection hk' with h
        subst h
        exact fun h' => hkey h'.symm
      · rw [if_neg hlt] at hk
        exact ih md bm hbm k hk

/-- The inner scan only evaluates the distance function on gallery entries
whose key differs from the query key: two distance functions that agree on
those entries drive the loop identically (the equal-key entries are skipped
before any distance is computed, line 154-156). -/
theorem matchLoop_congr (d d' : α → α → ℚ) (a_key : IdKey) (a_features : α) :
    ∀ (l : List (IdKey × α)) (md : WithTop ℚ) (bm : Option IdKey),
      (∀ b ∈ l, b.1 ≠ a_key → d a_features b.2 = d' a_features b.2) →
      matchLoop d a_key a_features l md bm = matchLoop d' a_key a_features l md bm := by
  intro l
  induction l with
  | nil => intro md bm _; rfl
  | cons b t ih =>
    intro md bm h
    obtain ⟨b_key, b_features⟩ := b
    simp only [matchLoop]
    by_cases hkey : a_key = b_key
    · rw [if_pos hkey, if_pos hkey]
      exact ih md bm (fun b hb hbk => h b (List.mem_cons_of_mem _ hb) hbk)
    · have hd : d a_features b_features = d' a_features b_features :=
        h (b_key, b_features) (List.mem_cons_self _ _) (fun he => hkey he.symm)
      rw [if_neg hkey, if_neg hkey, hd]
      by_cases hlt : ((d' a_features b_features : ℚ) : WithTop ℚ) < md
      · rw [if_pos hlt, if_pos hlt]
        exact ih _ _ (fun b hb hbk => h b (List.mem_cons_of_mem _ hb) hbk)
      · rw [if_neg hlt, if_neg hlt]
        exact ih md bm (fun b hb hbk => h b (List.mem_cons_of_mem _ hb) hbk)

theorem pyIdx_of_nonneg (n : ℕ) (i : ℤ) (h0 : 0 ≤ i) (hn : i < (n : ℤ)) :
    pyIdx n i = some ⟨i.toNat, by omega⟩ := by
  unfold pyIdx
  rw [dif_pos ⟨h0, hn⟩]

theorem pyIdx_neg_one (n : ℕ) (hn : 1 ≤ n) :
    pyIdx n (-1) = some ⟨n - 1, by omega⟩ := by
  unfold pyIdx
  rw [dif_neg (by omega), dif_pos (show -(n : ℤ) ≤ -1 ∧ (-1 : ℤ) < 0 by omega)]
  refine congrArg some (Fin.ext ?_)
  show ((-1 : ℤ) + n).toNat = n - 1
  omega

theorem pyIdx_none_of_ge (n : ℕ) (i : ℤ) (h : (n : ℤ) ≤ i) :
    pyIdx n i = none := by
  unfold pyIdx
  rw [dif_neg (by omega), dif_neg (by omega)]

/-- A query whose scan found no best match adds nothing to the confusion
matrix (the guard at line 160 skips the accumulation). -/
theorem accumLoop_cons_skip (d : α → α → ℚ) (n : ℕ) (b_dict : List (IdKey × α))
    (a_key : IdKey) (a_features : α) (rest : List (IdKey × α)) (cm : Fin n → Fin n → ℚ)
    (h : (matchLoop d a_key a_features b_dict ⊤ none).2 = none) :
    accumLoop d n b_dict ((a_key, a_features) :: rest) cm = accumLoop d n b_dict rest cm := by
  simp only [accumLoop, h]

/-- A query whose scan found a best match with both resolved indices adds one
count at the resolved cell (line 162). -/
theorem accumLoop_cons_count (d : α → α → ℚ) (n : ℕ) (b_dict : List (IdKey × α))
    (a_key b_key : IdKey) (a_features : α) (rest : List (IdKey × α))
    (cm : Fin n → Fin n → ℚ) (r c : Fin n)
    (hbm : (matchLoop d a_key a_features b_dict ⊤ none).2 = some b_key)
    (hr : pyIdx n (a_key.1 - 1) = some r) (hc : pyIdx n (b_key.1 - 1) = some c) :
    accumLoop d n b_dict ((a_key, a_features) :: rest) cm =
      accumLoop d n b_dict rest
        (fun r' c' => if r' = r ∧ c' = c then cm r' c' + 1 else cm r' c') := by
  simp only [accumLoop, hbm, hr, hc]

/-- A query whose row index does not resolve aborts the whole accumulation
(the embedded `IndexError`). -/
theorem accumLoop_cons_row_fail (d : α → α → ℚ) (n : ℕ) (b_dict : List (IdKey × α))
    (a_key b_key : IdKey) (a_features : α) (rest : List (IdKey × α)) (cm : Fin n → Fin n → ℚ)
    (hbm : (matchLoop d a_key a_features b_dict ⊤ none).2 = some b_key)
    (hr : pyIdx n (a_key.1 - 1) = none) :
    accumLoop d n b_dict ((a_key, a_features) :: rest) cm = none := by
  simp only [accumLoop, hbm, hr]

/-- A query whose column index does not resolve likewise aborts the whole
accumulation. -/
theorem accumLoop_cons_col_fail (d : α → α → ℚ) (n : ℕ) (b_dict : List (IdKey × α))
    (a_key b_key : IdKey) (a_features : α) (rest : List (IdKey × α)) (cm : Fin n → Fin n → ℚ)
    (r : Fin n)
    (hbm : (matchLoop d a_key a_features b_dict ⊤ none).2 = some b_key)
    (hr : pyIdx n (a_key.1 - 1) = some r) (hc : pyIdx n (b_key.1 - 1) = none) :
    accumLoop d n b_dict ((a_key, a_features) :: rest) cm = none := by
  simp only [accumLoop, hbm, hr, hc]

end MatcherLemmas

section BuildMHILemmas

variable {Frame B Image : Type}

/-- Once the builder exists, it stays the builder obtained by processing some
prefix of the remaining frames from the current state. -/
theorem bmhiLoop_builder_from (initB : Frame → B) (processB : B → Frame → B × Image)
    (getMHI : B → Image) (mhi_frame : Option ℕ) :
    ∀ (rest : List Frame) (b : B) (fn : ℕ),
      ∃ k, (bmhiLoop initB processB getMHI mhi_frame rest (some b) fn).1
        = some (foldProcess processB b (rest.take k)) := by
  intro rest
  induction rest with
  | nil =>
    intro b fn
    exact ⟨0, rfl⟩
  | cons f t ih =>
    intro b fn
    simp only [bmhiLoop]
    by_cases hmf : mhi_frame = some fn
    · rw [if_pos hmf]
      exact ⟨1, rfl⟩
    · rw [if_neg hmf]
      obtain ⟨k, hk⟩ := ih ((processB b f).1) (fn + 1)
      refine ⟨k + 1, ?_⟩
      rw [hk]
      simp [foldProcess]

end BuildMHILemmas

/-! ### Claim theorems -/

section Claims

variable {α : Type}

/-- Claim C1 (code bug): the claim — and §4.4 of the spec — say a row of the
confusion matrix whose sum is 0 must be handled explicitly rather than
divided, so no row of the returned matrix contains NaN.  The code divides
every row by its sum unconditionally (line 164), so an input whose first
action receives no predictions yields a NaN row: with
`a_features_dict = b_features_dict = {(1,1,1): v}` and `n_actions = 1`, the
only query has no different-key gallery entry, the matrix stays all-zero, and
row 0 is divided by 0 — the returned entry is the non-finite result of `0/0`
(embedded as `none`). -/
theorem c1_zero_sum_row_divided_to_nan :
    ∃ M, match_features (fun a b => (a - b) * (a - b))
        [(((1 : ℤ), (1 : ℤ), (1 : ℤ)), (0 : ℚ))]
        [(((1 : ℤ), (1 : ℤ), (1 : ℤ)), (0 : ℚ))] 1 1 = some M
      ∧ M 0 0 = none := by
  refine ⟨_, rfl, ?_⟩
  norm_num [match_features, accumLoop, matchLoop, normalizeRows, rowSum, pyRowDiv]

/-- Claim C2: a gallery entry whose identity key equals the query's key is
never chosen as the predicted match (first conjunct: whatever the scan
returns differs from the query key), and never compared (second conjunct: the
scan's result is unchanged by altering the distance function on the
equal-key pairs, so their distances are never consulted).  In particular,
when the query set and gallery set are the same collection no query is
matched to itself.  Holds for every distance function and every input. -/
theorem c2_self_match_excluded (d : α → α → ℚ) (a_key : IdKey) (a_features : α)
    (gallery : List (IdKey × α)) :
    (∀ b_key, (matchLoop d a_key a_features gallery ⊤ none).2 = some b_key → b_key ≠ a_key)
    ∧ (∀ d' : α → α → ℚ,
        (∀ b ∈ gallery, b.1 ≠ a_key → d a_features b.2 = d' a_features b.2) →
        matchLoop d a_key a_features gallery ⊤ none
          = matchLoop d' a_key a_features gallery ⊤ none) :=
  ⟨fun b_key h => matchLoop_best_ne d a_key a_features gallery ⊤ none
      (fun _ h' => absurd h' (by simp)) b_key h,
   fun d' h => matchLoop_congr d d' a_key a_features gallery ⊤ none h⟩

theorem c2_self_match_excluded_witness :
    ((2 : ℤ), (1 : ℤ), (1 : ℤ)) ≠ ((1 : ℤ), (1 : ℤ), (1 : ℤ)) :=
  (c2_self_match_excluded (fun a b => (a - b) * (a - b)) ((1 : ℤ), (1 : ℤ), (1 : ℤ)) (0 : ℚ)
      [(((1 : ℤ), (1 : ℤ), (1 : ℤ)), (0 : ℚ)), (((2 : ℤ), (1 : ℤ), (1 : ℤ)), (1 : ℚ))]).1
    ((2 : ℤ), (1 : ℤ), (1 : ℤ)) (by decide)

/-- Claim C3: a row of the returned matrix whose action received at least one
successful match (equivalently, whose accumulated row sum is nonzero) is a
probability distribution: each entry is the finite quotient of the count by
the row sum, and the entries sum exactly to 1 (the embedding computes in ℚ,
so "1.0 within floating tolerance" is exact). -/
theorem c3_matched_rows_sum_to_one (d : α → α → ℚ)
    (a_features_dict b_features_dict : List (IdKey × α)) (n_actions : ℕ) (scale : ℚ)
    (cm : Fin n_actions → Fin n_actions → ℚ) (r : Fin n_actions)
    (hacc : accumLoop d n_actions b_features_dict a_features_dict (fun _ _ => 0) = some cm)
    (hrow : rowSum n_actions cm r ≠ 0) :
    ∃ M, match_features d a_features_dict b_features_dict n_actions scale = some M
      ∧ (∀ c, M r c = some (cm r c / rowSum n_actions cm r))
      ∧ (∑ c, (M r c).getD 0) = 1 := by
  refine ⟨normalizeRows n_actions cm, ?_, ?_, ?_⟩
  · rw [match_features, hacc]
    rfl
  · intro c
    rw [normalizeRows, pyRowDiv, if_neg hrow]
  · have he : ∀ c, ((normalizeRows n_actions cm r c).getD 0)
        = cm r c / rowSum n_actions cm r := by
      intro c
      rw [normalizeRows, pyRowDiv, if_neg hrow]
      rfl
    rw [Finset.sum_congr rfl (fun c _ => he c), ← Finset.sum_div]
    have hs : ∑ c, cm r c = rowSum n_actions cm r := rfl
    rw [hs]
    exact div_self hrow

theorem c3_matched_rows_sum_to_one_witness :
    (accumLoop (fun a b => (a - b) * (a - b)) 1
        [(((1 : ℤ), (2 : ℤ), (2 : ℤ)), (0 : ℚ)), (((1 : ℤ), (2 : ℤ), (3 : ℤ)), (1 : ℚ))]
        [(((1 : ℤ), (2 : ℤ), (2 : ℤ)), (0 : ℚ)), (((1 : ℤ), (2 : ℤ), (3 : ℤ)), (1 : ℚ))]
        (fun _ _ => 0) = some (fun _ _ => (2 : ℚ))
      ∧ rowSum 1 (fun _ _ => (2 : ℚ)) 0 ≠ 0)
    ∧ ∃ M, match_features (fun a b => (a - b) * (a - b))
          [(((1 : ℤ), (2 : ℤ), (2 : ℤ)), (0 : ℚ)), (((1 : ℤ), (2 : ℤ), (3 : ℤ)), (1 : ℚ))]
          [(((1 : ℤ), (2 : ℤ), (2 : ℤ)), (0 : ℚ)), (((1 : ℤ), (2 : ℤ), (3 : ℤ)), (1 : ℚ))]
          1 1 = some M
        ∧ (∀ c, M 0 c = some ((fun _ _ => (2 : ℚ)) 0 c / rowSum 1 (fun _ _ => (2 : ℚ)) 0))
        ∧ (∑ c, (M 0 c).getD 0) = 1 :=
  have hacc : accumLoop (fun a b => (a - b) * (a - b)) 1
      [(((1 : ℤ), (2 : ℤ), (2 : ℤ)), (0 : ℚ)), (((1 : ℤ), (2 : ℤ), (3 : ℤ)), (1 : ℚ))]
      [(((1 : ℤ), (2 : ℤ), (2 : ℤ)), (0 : ℚ)), (((1 : ℤ), (2 : ℤ), (3 : ℤ)), (1 : ℚ))]
      (fun _ _ => 0) = some (fun _ _ => (2 : ℚ)) := by
    norm_num [accumLoop, matchLoop, pyIdx, Prod.mk.injEq]
    funext r c
    fin_cases r
    fin_cases c
    norm_num
  have hrow : rowSum 1 (fun _ _ => (2 : ℚ)) 0 ≠ 0 := by
    norm_num [rowSum, Fin.sum_univ_one]
  ⟨⟨hacc, hrow⟩, c3_matched_rows_sum_to_one _ _ _ 1 1 _ 0 hacc hrow⟩

/-- Claim C4: the predicted label for a query is the key of the
minimum-distance gallery entry among the eligible (different-key) entries,
and among equal minima the first one in iteration order wins: the scan's
result equals `firstMinKey` at the minimum of the eligible distances (an
equation between functions of the gallery list, hence deterministic for a
fixed iteration order), and that minimum is a lower bound of every eligible
distance. -/
theorem c4_first_minimum_wins (d : α → α → ℚ) (a_key : IdKey) (a_features : α)
    (gallery : List (IdKey × α)) :
    (matchLoop d a_key a_features gallery ⊤ none).2 =
      firstMinKey d a_features (minDiffOver d a_features (eligibleEntries a_key gallery))
        (eligibleEntries a_key gallery)
    ∧ ∀ b ∈ eligibleEntries a_key gallery,
        minDiffOver d a_features (eligibleEntries a_key gallery)
          ≤ ((d a_features b.2 : ℚ) : WithTop ℚ) := by
  constructor
  · rw [matchLoop_characterisation]
    dsimp only
    by_cases h : minDiffOver d a_features (eligibleEntries a_key gallery) < ⊤
    · rw [if_pos h]
    · rw [if_neg h]
      have he : eligibleEntries a_key gallery = [] := by
        by_contra hne
        exact h (minDiffOver_lt_top d a_features _ hne)
      rw [he]
      rfl
  · exact minDiffOver_le d a_features _

theorem c4_first_minimum_wins_witness :
    (matchLoop (fun _ b => b) ((1 : ℤ), (1 : ℤ), (1 : ℤ)) (0 : ℚ)
        [(((1 : ℤ), (1 : ℤ), (1 : ℤ)), (0 : ℚ)), (((2 : ℤ), (1 : ℤ), (1 : ℤ)), (1 : ℚ)),
         (((3 : ℤ), (1 : ℤ), (1 : ℤ)), (1 : ℚ))] ⊤ none).2
      = firstMinKey (fun _ b => b) (0 : ℚ)
          (minDiffOver (fun _ b => b) (0 : ℚ)
            (eligibleEntries ((1 : ℤ), (1 : ℤ), (1 : ℤ))
              [(((1 : ℤ), (1 : ℤ), (1 : ℤ)), (0 : ℚ)), (((2 : ℤ), (1 : ℤ), (1 : ℤ)), (1 : ℚ)),
               (((3 : ℤ), (1 : ℤ), (1 : ℤ)), (1 : ℚ))]))
          (eligibleEntries ((1 : ℤ), (1 : ℤ), (1 : ℤ))
            [(((1 : ℤ), (1 : ℤ), (1 : ℤ)), (0 : ℚ)), (((2 : ℤ), (1 : ℤ), (1 : ℤ)), (1 : ℚ)),
             (((3 : ℤ), (1 : ℤ), (1 : ℤ)), (1 : ℚ))])
    ∧ (matchLoop (fun _ b => b) ((1 : ℤ), (1 : ℤ), (1 : ℤ)) (0 : ℚ)
        [(((1 : ℤ), (1 : ℤ), (1 : ℤ)), (0 : ℚ)), (((2 : ℤ), (1 : ℤ), (1 : ℤ)), (1 : ℚ)),
         (((3 : ℤ), (1 : ℤ), (1 : ℤ)), (1 : ℚ))] ⊤ none).2
      = some ((2 : ℤ), (1 : ℤ), (1 : ℤ))
    ∧ minDiffOver (fun _ b => b) (0 : ℚ)
        (eligibleEntries ((1 : ℤ), (1 : ℤ), (1 : ℤ))
          [(((1 : ℤ), (1 : ℤ), (1 : ℤ)), (0 : ℚ)), (((2 : ℤ), (1 : ℤ), (1 : ℤ)), (1 : ℚ)),
           (((3 : ℤ), (1 : ℤ), (1 : ℤ)), (1 : ℚ))])
        ≤ (((3 : ℤ), (1 : ℤ), (1 : ℤ)), (1 : ℚ)).2 :=
  ⟨(c4_first_minimum_wins (fun _ b => b) ((1 : ℤ), (1 : ℤ), (1 : ℤ)) (0 : ℚ)
      [(((1 : ℤ), (1 : ℤ), (1 : ℤ)), (0 : ℚ)), (((2 : ℤ), (1 : ℤ), (1 : ℤ)), (1 : ℚ)),
       (((3 : ℤ), (1 : ℤ), (1 : ℤ)), (1 : ℚ))]).1,
   by decide,
   (c4_first_minimum_wins (fun _ b => b) ((1 : ℤ), (1 : ℤ), (1 : ℤ)) (0 : ℚ)
      [(((1 : ℤ), (1 : ℤ), (1 : ℤ)), (0 : ℚ)), (((2 : ℤ), (1 : ℤ), (1 : ℤ)), (1 : ℚ)),
       (((3 : ℤ), (1 : ℤ), (1 : ℤ)), (1 : ℚ))]).2
     ((((3 : ℤ), (1 : ℤ), (1 : ℤ)), (1 : ℚ))) (by decide)⟩

/-- Claim C5: a query with no eligible (different-key) gallery entry finds no
best match (`best_match` stays `None`), so no count is added for it: removing
such a query from the query dict leaves the whole accumulation unchanged, and
in particular the remaining queries are processed normally — nothing
crashes. -/
theorem c5_query_without_eligible_gallery_skipped (d : α → α → ℚ) (n : ℕ)
    (b_dict : List (IdKey × α)) (a_key : IdKey) (a_features : α)
    (helig : eligibleEntries a_key b_dict = []) :
    (matchLoop d a_key a_features b_dict ⊤ none).2 = none
    ∧ ∀ (pre post : List (IdKey × α)) (cm : Fin n → Fin n → ℚ),
        accumLoop d n b_dict (pre ++ (a_key, a_features) :: post) cm
          = accumLoop d n b_dict (pre ++ post) cm := by
  have hnone : (matchLoop d a_key a_features b_dict ⊤ none).2 = none := by
    rw [matchLoop_characterisation]
    dsimp only
    rw [helig, minDiffOver_nil, if_neg (lt_irrefl _)]
  refine ⟨hnone, ?_⟩
  intro pre
  induction pre with
  | nil =>
    intro post cm
    simp only [List.nil_append]
    exact accumLoop_cons_skip d n b_dict a_key a_features post cm hnone
  | cons q pre_t ih =>
    intro post cm
    obtain ⟨k, f⟩ := q
    simp only [List.cons_append]
    cases hbm : (matchLoop d k f b_dict ⊤ none).2 with
    | none =>
      rw [accumLoop_cons_skip d n b_dict k f _ cm hbm,
          accumLoop_cons_skip d n b_dict k f _ cm hbm]
      exact ih post cm
    | some bk =>
      cases hr : pyIdx n (k.1 - 1) with
      | none =>
        rw [accumLoop_cons_row_fail d n b_dict k bk f _ cm hbm hr,
            accumLoop_cons_row_fail d n b_dict k bk f _ cm hbm hr]
      | some r =>
        cases hc : pyIdx n (bk.1 - 1) with
        | none =>
          rw [accumLoop_cons_col_fail d n b_dict k bk f _ cm r hbm hr hc,
              accumLoop_cons_col_fail d n b_dict k bk f _ cm r hbm hr hc]
        | some c =>
          rw [accumLoop_cons_count d n b_dict k bk f _ cm r c hbm hr hc,
              accumLoop_cons_count d n b_dict k bk f _ cm r c hbm hr hc]
          exact ih post _

theorem c5_query_without_eligible_gallery_skipped_witness :
    eligibleEntries ((1 : ℤ), (1 : ℤ), (1 : ℤ)) [(((1 : ℤ), (1 : ℤ), (1 : ℤ)), (37 : ℚ))] = []
    ∧ (matchLoop (fun a b => a - b) ((1 : ℤ), (1 : ℤ), (1 : ℤ)) (0 : ℚ)
        [(((1 : ℤ), (1 : ℤ), (1 : ℤ)), (37 : ℚ))] ⊤ none).2 = none
    ∧ accumLoop (fun a b => a - b) 1 [(((1 : ℤ), (1 : ℤ), (1 : ℤ)), (37 : ℚ))]
        ([] ++ (((1 : ℤ), (1 : ℤ), (1 : ℤ)), (0 : ℚ)) :: []) (fun _ _ => 0)
      = accumLoop (fun a b => a - b) 1 [(((1 : ℤ), (1 : ℤ), (1 : ℤ)), (37 : ℚ))]
        ([] ++ []) (fun _ _ => 0) :=
  have h : eligibleEntries ((1 : ℤ), (1 : ℤ), (1 : ℤ))
      [(((1 : ℤ), (1 : ℤ), (1 : ℤ)), (37 : ℚ))] = [] := by decide
  ⟨h,
   (c5_query_without_eligible_gallery_skipped (fun a b => a - b) 1 _ _ (0 : ℚ) h).1,
   (c5_query_without_eligible_gallery_skipped (fun a b => a - b) 1 _ _ (0 : ℚ) h).2
     [] [] (fun _ _ => 0)⟩

/-- Claim C6: a query whose scan found a best match contributes exactly one
count: the accumulation step rewrites the matrix at the single cell whose row
is the query key's 1-based action index minus one and whose column is the
matched key's 1-based action index minus one, adding 1 there and leaving
every other cell unchanged; the matrix is an `n_actions × n_actions` table
(`Fin n → Fin n → ℚ`). -/
theorem c6_one_count_per_matched_query (d : α → α → ℚ) (n : ℕ)
    (b_dict rest : List (IdKey × α)) (a_key b_key : IdKey) (a_features : α)
    (cm : Fin n → Fin n → ℚ)
    (hbm : (matchLoop d a_key a_features b_dict ⊤ none).2 = some b_key)
    (ha : 1 ≤ a_key.1 ∧ a_key.1 ≤ (n : ℤ)) (hb : 1 ≤ b_key.1 ∧ b_key.1 ≤ (n : ℤ)) :
    ∃ r c : Fin n, ((r : ℕ) : ℤ) = a_key.1 - 1 ∧ ((c : ℕ) : ℤ) = b_key.1 - 1 ∧
      accumLoop d n b_dict ((a_key, a_features) :: rest) cm =
        accumLoop d n b_dict rest
          (fun r' c' => if r' = r ∧ c' = c then cm r' c' + 1 else cm r' c') := by
  obtain ⟨ha1, ha2⟩ := ha
  obtain ⟨hb1, hb2⟩ := hb
  have hr := pyIdx_of_nonneg n (a_key.1 - 1) (by omega) (by omega)
  have hc := pyIdx_of_nonneg n (b_key.1 - 1) (by omega) (by omega)
  refine ⟨⟨(a_key.1 - 1).toNat, by omega⟩, ⟨(b_key.1 - 1).toNat, by omega⟩,
    by simp; omega, by simp; omega, ?_⟩
  exact accumLoop_cons_count d n b_dict a_key b_key a_features rest cm _ _ hbm hr hc

theorem c6_one_count_per_matched_query_witness :
    ∃ r c : Fin 2, ((r : ℕ) : ℤ) = ((1 : ℤ), (2 : ℤ), (2 : ℤ)).1 - 1
      ∧ ((c : ℕ) : ℤ) = ((2 : ℤ), (2 : ℤ), (2 : ℤ)).1 - 1
      ∧ accumLoop (fun _ b => b) 2 [(((2 : ℤ), (2 : ℤ), (2 : ℤ)), (3 : ℚ))]
          ((((1 : ℤ), (2 : ℤ), (2 : ℤ)), (0 : ℚ)) :: []) (fun _ _ => 0) =
        accumLoop (fun _ b => b) 2 [(((2 : ℤ), (2 : ℤ), (2 : ℤ)), (3 : ℚ))] []
          (fun r' c' => if r' = r ∧ c' = c then (fun _ _ => (0 : ℚ)) r' c' + 1
            else (fun _ _ => (0 : ℚ)) r' c') :=
  c6_one_count_per_matched_query (fun _ b => b) 2 [(((2 : ℤ), (2 : ℤ), (2 : ℤ)), (3 : ℚ))] []
    ((1 : ℤ), (2 : ℤ), (2 : ℤ)) ((2 : ℤ), (2 : ℤ), (2 : ℤ)) (0 : ℚ) (fun _ _ => 0)
    (by decide) (by decide) (by decide)

/-- Claim C7, counterexample: the claim says the distances used inside
`match_features` are the Euclidean distance scaled multiplicatively by the
caller-supplied `scale` argument.  But line 156 calls
`compute_feature_difference(a_features, b_features)` without forwarding
`scale`, so the distance used is the unscaled Euclidean distance: at the
concrete 16-dimensional descriptors below, whose Euclidean distance is 2,
doubling `scale` does not double the distance used (2 ≠ 4). -/
theorem c7_scale_not_multiplicative_counterexample :
    ¬ (matchFeaturesDistanceUsed 2
          [2, 0, 0, 0, 0, 0, 0, 0, 0, 0, 0, 0, 0, 0, 0, 0]
          [0, 0, 0, 0, 0, 0, 0, 0, 0, 0, 0, 0, 0, 0, 0, 0]
        = 2 * matchFeaturesDistanceUsed 1
          [2, 0, 0, 0, 0, 0, 0, 0, 0, 0, 0, 0, 0, 0, 0, 0]
          [0, 0, 0, 0, 0, 0, 0, 0, 0, 0, 0, 0, 0, 0, 0, 0]) := by
  have h : euclideanDistance
      [2, 0, 0, 0, 0, 0, 0, 0, 0, 0, 0, 0, 0, 0, 0, 0]
      [0, 0, 0, 0, 0, 0, 0, 0, 0, 0, 0, 0, 0, 0, 0, 0] = 2 := by
    rw [euclideanDistance]
    norm_num [List.zip_cons_cons]
    rw [show (4 : ℝ) = 2 ^ 2 by norm_num, Real.sqrt_sq (by norm_num : (0 : ℝ) ≤ 2)]
  simp only [matchFeaturesDistanceUsed, h]
  norm_num

/-- Claim C7, amended: the distance used by `match_features` for a
query/gallery pair is the unscaled Euclidean distance over the descriptor
vectors, for every value of the `scale` argument — `scale` is accepted by
`match_features` but never forwarded to `compute_feature_difference`
(line 156), so the returned confusion matrix is also independent of it; the
two-argument call corresponds to the spec's distance at scale factor 1. -/
theorem c7_scale_parameter_unused (d : α → α → ℚ)
    (a_features_dict b_features_dict : List (IdKey × α)) (n_actions : ℕ)
    (s₁ s₂ : ℚ) (s : ℝ) (a b : List ℝ) :
    match_features d a_features_dict b_features_dict n_actions s₁
      = match_features d a_features_dict b_features_dict n_actions s₂
    ∧ matchFeaturesDistanceUsed s a b = euclideanDistance a b
    ∧ compute_feature_difference a b 1 = euclideanDistance a b :=
  ⟨rfl, rfl, one_mul _⟩

/-- Claim C8: the MEI derived at line 121 is the elementwise indicator
`MHI > 0`: every cell of `mei_of_mhi mhi` is exactly 0 or 1, cell `(i, j)` of
the MEI is 1 precisely when cell `(i, j)` of the MHI is positive (stated for
every index, present or absent, through the optional lookup), and an all-zero
MHI yields an all-zero MEI. -/
theorem c8_mei_is_indicator_of_mhi (mhi : List (List ℚ))
    (hrange : ∀ row ∈ mhi, ∀ x ∈ row, 0 ≤ x ∧ x ≤ 1) :
    (∀ row ∈ mei_of_mhi mhi, ∀ v ∈ row, v = 0 ∨ v = 1)
    ∧ (∀ i j : ℕ, ((mei_of_mhi mhi)[i]?.bind fun row => row[j]?)
        = (mhi[i]?.bind fun row => row[j]?).map
            (fun x => if 0 < x then (1 : ℕ) else 0))
    ∧ ((∀ row ∈ mhi, ∀ x ∈ row, x = 0) →
        ∀ row ∈ mei_of_mhi mhi, ∀ v ∈ row, v = 0) := by
  refine ⟨?_, ?_, ?_⟩
  · intro row hrow v hv
    simp only [mei_of_mhi] at hrow
    obtain ⟨row0, _, rfl⟩ := List.mem_map.mp hrow
    obtain ⟨x, _, rfl⟩ := List.mem_map.mp hv
    by_cases h : 0 < x
    · right; simp [h]
    · left; simp [h]
  · intro i j
    simp only [mei_of_mhi, List.getElem?_map]
    cases mhi[i]? with
    | none => rfl
    | some row => simp [List.getElem?_map]
  · intro hzero row hrow v hv
    simp only [mei_of_mhi] at hrow
    obtain ⟨row0, hrow0, rfl⟩ := List.mem_map.mp hrow
    obtain ⟨x, hx, rfl⟩ := List.mem_map.mp hv
    have : x = 0 := hzero row0 hrow0 x hx
    simp [this]

theorem c8_mei_is_indicator_of_mhi_witness :
    (∀ row ∈ [[(0 : ℚ), 1/2], [1, 0]], ∀ x ∈ row, 0 ≤ x ∧ x ≤ 1)
    ∧ ∀ row ∈ mei_of_mhi [[(0 : ℚ), 1/2], [1, 0]], ∀ v ∈ row, v = 0 ∨ v = 1 :=
  ⟨by norm_num, (c8_mei_is_indicator_of_mhi [[(0 : ℚ), 1/2], [1, 0]] (by norm_num)).1⟩

/-- Claim C9: `build_motion_history_image` returns an MHI exactly when the
video source yields at least one readable frame: on an empty frame stream the
builder is never constructed and line 80 invokes `get_MHI` on the absent
builder — the embedded failure `none` — and on any successful return the
builder in use was constructed from the first frame read (it is the state
obtained by processing some prefix of the stream, starting from
`builder_class(first_frame)` applied at line 53). -/
theorem c9_requires_readable_frame {Frame B Image : Type} (initB : Frame → B)
    (processB : B → Frame → B × Image) (getMHI : B → Image) (mhi_frame : Option ℕ)
    (frames : List Frame) :
    (build_motion_history_image initB processB getMHI mhi_frame frames = none
      ↔ frames = [])
    ∧ (∀ f rest, frames = f :: rest →
        ∃ k, (bmhiLoop initB processB getMHI mhi_frame frames none 0).1
          = some (foldProcess processB (initB f) (f :: rest.take k))) := by
  have haux : ∀ f rest, frames = f :: rest →
      ∃ k, (bmhiLoop initB processB getMHI mhi_frame frames none 0).1
        = some (foldProcess processB (initB f) (f :: rest.take k)) := by
    intro f rest hfr
    subst hfr
    simp only [bmhiLoop]
    by_cases hmf : mhi_frame = some 0
    · rw [if_pos hmf]
      exact ⟨0, by simp [foldProcess]⟩
    · rw [if_neg hmf]
      obtain ⟨k, hk⟩ :=
        bmhiLoop_builder_from initB processB getMHI mhi_frame rest ((processB (initB f) f).1) 1
      refine ⟨k, ?_⟩
      rw [hk]
      simp [foldProcess]
  refine ⟨⟨?_, ?_⟩, haux⟩
  · intro hnone
    cases hfr : frames with
    | nil => rfl
    | cons f rest =>
      exfalso
      obtain ⟨k, hb⟩ := haux f rest hfr
      rw [hfr] at hnone
      unfold build_motion_history_image at hnone
      rw [hfr] at hb
      revert hnone
      rcases hpair : bmhiLoop initB processB getMHI mhi_frame (f :: rest) none 0 with ⟨b, m⟩
      rw [hpair] at hb
      simp only at hb
      subst hb
      cases m with
      | none => intro hnone; cases hnone
      | some mm => intro hnone; cases hnone
  · intro hfr
    subst hfr
    rfl

theorem c9_requires_readable_frame_witness :
    (build_motion_history_image (fun f => f) (fun b f => (b + f, b)) (fun b => b) none
        ([] : List ℕ) = none)
    ∧ ∃ k, (bmhiLoop (fun f => f) (fun b f => (b + f, b)) (fun b => b) none [5] none 0).1
        = some (foldProcess (fun b f => (b + f, b)) ((fun f => f) 5)
            (5 :: ([] : List ℕ).take k)) :=
  ⟨(c9_requires_readable_frame (fun f => f) (fun b f => (b + f, b)) (fun b => b) none
      ([] : List ℕ)).1.mpr rfl,
   (c9_requires_readable_frame (fun f => f) (fun b f => (b + f, b)) (fun b => b) none
      [5]).2 5 [] rfl⟩

/-- Claim C10: `match_features` performs no bounds validation on action
indices.  A query key with action index 0 is resolved by numpy negative
indexing: its count lands silently in the last row (index `n − 1`); likewise
a matched gallery key with action index 0 lands in the last column; and a
query key with action index greater than `n_actions` makes the accumulation
fail out of bounds (the embedded `IndexError`, which aborts the whole
computation). -/
theorem c10_no_bounds_validation (d : α → α → ℚ) (n : ℕ)
    (b_dict rest : List (IdKey × α)) (a_key b_key : IdKey) (a_features : α)
    (cm : Fin n → Fin n → ℚ) (hn : 1 ≤ n)
    (hbm : (matchLoop d a_key a_features b_dict ⊤ none).2 = some b_key) :
    (a_key.1 = 0 → 1 ≤ b_key.1 → b_key.1 ≤ (n : ℤ) →
      ∃ c : Fin n, ((c : ℕ) : ℤ) = b_key.1 - 1 ∧
        accumLoop d n b_dict ((a_key, a_features) :: rest) cm =
          accumLoop d n b_dict rest
            (fun r' c' => if r' = ⟨n - 1, by omega⟩ ∧ c' = c then cm r' c' + 1
              else cm r' c'))
    ∧ (b_key.1 = 0 → 1 ≤ a_key.1 → a_key.1 ≤ (n : ℤ) →
      ∃ r : Fin n, ((r : ℕ) : ℤ) = a_key.1 - 1 ∧
        accumLoop d n b_dict ((a_key, a_features) :: rest) cm =
          accumLoop d n b_dict rest
            (fun r' c' => if r' = r ∧ c' = ⟨n - 1, by omega⟩ then cm r' c' + 1
              else cm r' c'))
    ∧ ((n : ℤ) < a_key.1 →
        accumLoop d n b_dict ((a_key, a_features) :: rest) cm = none) := by
  refine ⟨?_, ?_, ?_⟩
  · intro ha0 hb1 hb2
    have hr : pyIdx n (a_key.1 - 1) = some ⟨n - 1, by omega⟩ := by
      rw [show a_key.1 - 1 = -1 by omega]
      exact pyIdx_neg_one n hn
    have hc := pyIdx_of_nonneg n (b_key.1 - 1) (by omega) (by omega)
    refine ⟨⟨(b_key.1 - 1).toNat, by omega⟩, by simp; omega, ?_⟩
    exact accumLoop_cons_count d n b_dict a_key b_key a_features rest cm _ _ hbm hr hc
  · intro hb0 ha1 ha2
    have hr := pyIdx_of_nonneg n (a_key.1 - 1) (by omega) (by omega)
    have hc : pyIdx n (b_key.1 - 1) = some ⟨n - 1, by omega⟩ := by
      rw [show b_key.1 - 1 = -1 by omega]
      exact pyIdx_neg_one n hn
    refine ⟨⟨(a_key.1 - 1).toNat, by omega⟩, by simp; omega, ?_⟩
    exact accumLoop_cons_count d n b_dict a_key b_key a_features rest cm _ _ hbm hr hc
  · intro hgt
    exact accumLoop_cons_row_fail d n b_dict a_key b_key a_features rest cm hbm
      (pyIdx_none_of_ge n (a_key.1 - 1) (by omega))

theorem c10_no_bounds_validation_witness :
    (∃ c : Fin 1, ((c : ℕ) : ℤ) = ((1 : ℤ), (2 : ℤ), (2 : ℤ)).1 - 1 ∧
      accumLoop (fun _ b => b) 1 [(((1 : ℤ), (2 : ℤ), (2 : ℤ)), (5 : ℚ))]
          ((((0 : ℤ), (2 : ℤ), (2 : ℤ)), (0 : ℚ)) :: []) (fun _ _ => 0) =
        accumLoop (fun _ b => b) 1 [(((1 : ℤ), (2 : ℤ), (2 : ℤ)), (5 : ℚ))] []
          (fun r' c' => if r' = ⟨1 - 1, by omega⟩ ∧ c' = c
            then (fun _ _ => (0 : ℚ)) r' c' + 1 else (fun _ _ => (0 : ℚ)) r' c'))
    ∧ accumLoop (fun _ b => b) 1 [(((1 : ℤ), (2 : ℤ), (2 : ℤ)), (5 : ℚ))]
        ((((2 : ℤ), (2 : ℤ), (2 : ℤ)), (0 : ℚ)) :: []) (fun _ _ => 0) = none :=
  ⟨(c10_no_bounds_validation (fun _ b => b) 1 [(((1 : ℤ), (2 : ℤ), (2 : ℤ)), (5 : ℚ))] []
      ((0 : ℤ), (2 : ℤ), (2 : ℤ)) ((1 : ℤ), (2 : ℤ), (2 : ℤ)) (0 : ℚ) (fun _ _ => 0)
      (by decide) (by decide)).1 rfl (by decide) (by decide),
   (c10_no_bounds_validation (fun _ b => b) 1 [(((1 : ℤ), (2 : ℤ), (2 : ℤ)), (5 : ℚ))] []
      ((2 : ℤ), (2 : ℤ), (2 : ℤ)) ((1 : ℤ), (2 : ℤ), (2 : ℤ)) (0 : ℚ) (fun _ _ => 0)
      (by decide) (by decide)).2.2 (by decide)⟩

end Claims

end PS8Exp
